import Mathlib

/-!
Shallow embedding of `pygod/models/base.py` (class `BaseDetector`).

Real numbers are modelled by `ℚ`.  The two transcendental primitives the
source consumes (`scipy.special.erf` and `numpy.sqrt`) are taken as
abstract parameters `erf sqrtQ : ℚ → ℚ`; the binomial CDF is rational and
is defined exactly.  The graph and the abstract method
`decision_function` are parameters as well: the base class only pipes the
score vector that the concrete subclass returns.  Python exceptions are
modelled by `Except` / an explicit error value; the mutation of `self`
performed by `set_params` before an exception is surfaced by returning
the attribute dictionary together with the optional error.
-/

namespace Pygod

/-- Python attribute values handled by the parameter-introspection layer
(`get_params` / `set_params`).  A nested estimator is a pair of its
declared constructor-parameter names and its attribute dictionary; keys
are Python strings modelled as character lists so that the `'__'`
splitting of `set_params` can be reasoned about. -/
inductive PValue where
  | num : ℚ → PValue
  | none_ : PValue
  | est : List (List Char) → List (List Char × PValue) → PValue

/-- Errors raised by the methods of `BaseDetector`.  `invalidParameter`
carries the offending key and the estimator (its parameter names and
attribute dictionary at raise time), as the Python `ValueError` message
interpolates both the key and `self`. -/
inductive PygodError where
  | notFitted
  | valueError
  | invalidMethod (method : String)
  | invalidParameter (key : List Char) (estNames : List (List Char))
      (estAttrs : List (List Char × PValue))
  | attributeError
  | recursionError

/-- Fittable state of a detector.  Attributes that Python creates only at
fit time are `Option`-valued; `none` models the absent attribute. -/
structure BaseDetector where
  contamination : ℚ
  decision_scores_ : Option (List ℚ) := none
  threshold_ : Option ℚ := none
  labels_ : Option (List ℤ) := none
  _mu : Option ℚ := none
  _sigma : Option ℚ := none

/-- Constructor `BaseDetector.__init__`: validates `contamination`. -/
def BaseDetector.init (contamination : ℚ) : Except PygodError BaseDetector :=
  if 0 < contamination ∧ contamination ≤ 1/2 then
    .ok { contamination := contamination }
  else
    .error .valueError

/-- Arithmetic mean, `numpy.mean`. -/
def mean (l : List ℚ) : ℚ := l.sum / l.length

/-- Population variance; `numpy.std` is `sqrtQ` of this. -/
def variance (l : List ℚ) : ℚ :=
  ((l.map (fun x => (x - mean l) ^ 2)).sum) / l.length

/-- `numpy.percentile` with the default linear-interpolation method. -/
def percentile (a : List ℚ) (q : ℚ) : ℚ :=
  let s := a.insertionSort (· ≤ ·)
  let h : ℚ := ((a.length : ℚ) - 1) * q / 100
  let i : ℕ := h.floor.toNat
  let lo := s.getD i 0
  let hi := s.getD (i + 1) lo
  lo + (h - (i : ℚ)) * (hi - lo)

/-- `BaseDetector._process_decision_scores`: computes `threshold_`,
`labels_`, `_mu` and `_sigma` from `decision_scores_` in one step.
`none` models the `AttributeError` raised when `decision_scores_` was
never assigned. -/
def _process_decision_scores (sqrtQ : ℚ → ℚ) (d : BaseDetector) :
    Option BaseDetector :=
  match d.decision_scores_ with
  | none => none
  | some scores =>
    let t := percentile scores (100 * (1 - d.contamination))
    some { d with
      threshold_ := some t
      labels_ := some (scores.map (fun s => if t < s then (1 : ℤ) else 0))
      _mu := some (mean scores)
      _sigma := some (sqrtQ (variance scores)) }

/-- `numpy.int` / C truncation toward zero of a rational. -/
def npInt (q : ℚ) : ℤ := if q < 0 then -(Rat.floor (-q)) else q.floor

/-- `scipy.stats.binom.cdf x n p`: probability that a `Binomial n p`
variable is at most `x`. -/
def binomCdf (x : ℤ) (n : ℕ) (p : ℚ) : ℚ :=
  ∑ k ∈ Finset.range (n + 1),
    if (k : ℤ) ≤ x then (n.choose k : ℚ) * p ^ k * (1 - p) ^ (n - k) else 0

/-- `BaseDetector.predict_confidence`.  The three-attribute match models
sklearn's `check_is_fitted` on
`['decision_scores_', 'threshold_', 'labels_']`. -/
def predict_confidence {γ : Type} (df : γ → List ℚ) (d : BaseDetector)
    (G : γ) : Except PygodError (List ℚ) :=
  match d.decision_scores_, d.threshold_, d.labels_ with
  | some train, some t, some _ =>
    let n := train.length
    let test_scores := df G
    .ok (test_scores.map (fun x =>
      let n_instances := (train.filter (fun s => s ≤ x)).length
      let posterior_prob : ℚ := (1 + (n_instances : ℚ)) / (2 + (n : ℚ))
      let c := 1 - binomCdf ((n : ℤ) - npInt ((n : ℚ) * d.contamination)) n
        posterior_prob
      if t < x then c else 1 - c))
  | _, _, _ => .error .notFitted

/-- `BaseDetector.predict`.  The result pairs the labels with the
confidence vector, present exactly when `return_confidence` was set. -/
def predict {γ : Type} (df : γ → List ℚ) (d : BaseDetector) (G : γ)
    (return_confidence : Bool) :
    Except PygodError (List ℤ × Option (List ℚ)) :=
  match d.decision_scores_, d.threshold_, d.labels_ with
  | some _, some t, some _ =>
    let pred_score := df G
    let prediction := pred_score.map (fun s => if t < s then (1 : ℤ) else 0)
    if return_confidence then
      match predict_confidence df d G with
      | .ok confidence => .ok (prediction, some confidence)
      | .error e => .error e
    else
      .ok (prediction, none)
  | _, _, _ => .error .notFitted

/-- Clipping to `[0, 1]`, `numpy.clip(·, 0, 1)`. -/
def clip01 (x : ℚ) : ℚ := min (max x 0) 1

/-- Smallest element, `MinMaxScaler.data_min_` over one feature. -/
def data_min : List ℚ → ℚ
  | [] => 0
  | h :: t => t.foldl min h

/-- Largest element, `MinMaxScaler.data_max_` over one feature. -/
def data_max : List ℚ → ℚ
  | [] => 0
  | h :: t => t.foldl max h

/-- `MinMaxScaler` fitted on `train` and applied to `x`; a zero range is
replaced by `1` as in sklearn's `_handle_zeros_in_scale`. -/
def minMaxTransform (train : List ℚ) (x : ℚ) : ℚ :=
  let range := data_max train - data_min train
  (x - data_min train) / (if range = 0 then 1 else range)

/-- `BaseDetector.predict_proba`.  Rows of the `(n, 2)` probability
matrix are pairs `(column 0, column 1)`. -/
def predict_proba {γ : Type} (erf sqrtQ : ℚ → ℚ) (df : γ → List ℚ)
    (d : BaseDetector) (G : γ) (method : String)
    (return_confidence : Bool) :
    Except PygodError (List (ℚ × ℚ) × Option (List ℚ)) :=
  match d.decision_scores_, d.threshold_, d.labels_ with
  | some train_scores, some _, some _ =>
    let test_scores := df G
    if method = "linear" then
      let probs := test_scores.map (fun x =>
        (1 - clip01 (minMaxTransform train_scores x),
          clip01 (minMaxTransform train_scores x)))
      if return_confidence then
        match predict_confidence df d G with
        | .ok confidence => .ok (probs, some confidence)
        | .error e => .error e
      else
        .ok (probs, none)
    else if method = "unify" then
      match d._mu, d._sigma with
      | some mu, some sigma =>
        let probs := test_scores.map (fun x =>
          (1 - clip01 (erf ((x - mu) / (sigma * sqrtQ 2))),
            clip01 (erf ((x - mu) / (sigma * sqrtQ 2)))))
        if return_confidence then
          match predict_confidence df d G with
          | .ok confidence => .ok (probs, some confidence)
          | .error e => .error e
        else
          .ok (probs, none)
      | _, _ => .error .attributeError
    else
      .error (.invalidMethod method)
  | _, _, _ => .error .notFitted

/-! Parameter introspection (`_get_param_names` / `get_params` /
`set_params`).  An estimator is modelled generically by the list of its
declared constructor-parameter names (the sorted result of
`_get_param_names`) together with its attribute dictionary, an ordered
association list mirroring the Python instance `__dict__`. -/

/-- `getattr`-style lookup in an attribute dictionary. -/
def lookupAttr : List (List Char × PValue) → List Char → Option PValue
  | [], _ => none
  | (k, v) :: rest, key => if k = key then some v else lookupAttr rest key

/-- Python `dict` assignment `d[k] = v`: replaces in place, else appends. -/
def dictInsert : List (List Char × PValue) → List Char → PValue →
    List (List Char × PValue)
  | [], k, v => [(k, v)]
  | (k', v') :: rest, k, v =>
    if k' = k then (k', v) :: rest else (k', v') :: dictInsert rest k v

/-- `defaultdict(dict)` assignment `nd[k][sub] = v`. -/
def nestedInsert :
    List (List Char × List (List Char × PValue)) → List Char → List Char →
    PValue → List (List Char × List (List Char × PValue))
  | [], k, sub, v => [(k, [(sub, v)])]
  | (k', d) :: rest, k, sub, v =>
    if k' = k then (k', dictInsert d sub v) :: rest
    else (k', d) :: nestedInsert rest k sub v

/-- Location of the first `"__"` in a key: `splitDunder k = some (a, b)`
when `k = a ++ "__" ++ b` with the leftmost shortest `a`, `none` when
`k` has no `"__"`.  This is `str.partition('__')`. -/
def splitDunder : List Char → Option (List Char × List Char)
  | [] => none
  | [_] => none
  | c :: d :: rest =>
    if c = '_' ∧ d = '_' then some ([], rest)
    else
      match splitDunder (d :: rest) with
      | none => none
      | some (a, b) => some (c :: a, b)

/-- `key.partition('__')` as (head, found, tail). -/
def partitionKey (key : List Char) : List Char × Bool × List Char :=
  match splitDunder key with
  | none => (key, false, [])
  | some (a, b) => (a, true, b)

/-- `BaseDetector.get_params`.  The recursion on nested estimators is
fuelled; Python's own recursion is bounded by the interpreter's
recursion limit.  The nested call `value.get_params()` uses the default
`deep=True`. -/
def get_params : ℕ → Bool → List (List Char) → List (List Char × PValue) →
    List (List Char × PValue)
  | 0, _, _, _ => []
  | fuel + 1, deep, names, attrs =>
    names.foldl
      (fun out key =>
        let value := (lookupAttr attrs key).getD PValue.none_
        let out1 :=
          if deep then
            match value with
            | PValue.est ns ats =>
              ((get_params fuel true ns ats).map
                (fun kv => (key ++ '_' :: '_' :: kv.1, kv.2))).foldl
                (fun o kv => dictInsert o kv.1 kv.2) out
            | _ => out
          else out
        dictInsert out1 key value)
      []

/-- The key-wise loop of `set_params`: partitions each key on `'__'`,
validates its head against the known parameter keys, applies simple
assignments to the attribute dictionary at once and collects nested
assignments; it stops at the first invalid key, returning the state
reached so far together with the error. -/
def set_params_go (names validKeys : List (List Char)) :
    List (List Char × PValue) →
    List (List Char × List (List Char × PValue)) →
    List (List Char × PValue) →
    List (List Char × PValue) ×
      List (List Char × List (List Char × PValue)) × Option PygodError
  | attrs, nested, [] => (attrs, nested, none)
  | attrs, nested, (key, value) :: rest =>
    let p := partitionKey key
    if p.1 ∈ validKeys then
      if p.2.1 then
        set_params_go names validKeys attrs (nestedInsert nested p.1 p.2.2 value)
          rest
      else
        set_params_go names validKeys (dictInsert attrs p.1 value) nested rest
    else
      (attrs, nested, some (.invalidParameter p.1 names attrs))

/-- `BaseDetector.set_params`.  Returns the attribute dictionary after
the call together with the raised error, if any: Python mutates `self`
in place, so assignments made before an exception persist.  Nested
updates are applied to the current attribute value of the key, which
coincides with the snapshot Python fetches before the loop except when
the same call also reassigns that key. -/
def set_params : ℕ → List (List Char) → List (List Char × PValue) →
    List (List Char × PValue) →
    List (List Char × PValue) × Option PygodError
  | _, _, attrs, [] => (attrs, none)
  | 0, _, attrs, _ :: _ => (attrs, some .recursionError)
  | fuel + 1, names, attrs, p :: ps =>
    let validKeys := (get_params (fuel + 1) true names attrs).map Prod.fst
    match set_params_go names validKeys attrs [] (p :: ps) with
    | (attrs1, _, some e) => (attrs1, some e)
    | (attrs1, nested, none) =>
      nested.foldl
        (fun acc kp =>
          match acc.2 with
          | some _ => acc
          | none =>
            match lookupAttr acc.1 kp.1 with
            | some (PValue.est ns ats) =>
              let r := set_params fuel ns ats kp.2
              (dictInsert acc.1 kp.1 (PValue.est ns r.1), r.2)
            | _ => (acc.1, some PygodError.attributeError))
        (attrs1, none)

/-- Well-formed estimator: the declared parameter names are distinct,
contain no `"__"` and do not end in `'_'` (both guaranteed for Python
constructor parameters that follow the sklearn convention), every
declared name is present in the attribute dictionary (the constructor
assigns each), and nested estimators are recursively well-formed within
the given depth. -/
def wfE : ℕ → List (List Char) → List (List Char × PValue) → Bool
  | 0, _, _ => false
  | fuel + 1, names, attrs =>
    decide names.Nodup &&
    names.all (fun k =>
      (splitDunder k).isNone && decide (k.getLast? ≠ some '_') &&
      match lookupAttr attrs k with
      | some (PValue.est ns ats) => wfE fuel ns ats
      | some _ => true
      | none => false)

/-- Per-key block of flattened nested entries. -/
def flattenSub (key : List Char) (sub : List (List Char × PValue)) :
    List (List Char × PValue) :=
  sub.map (fun kv => (key ++ '_' :: '_' :: kv.1, kv.2))

/-- Closed form of `get_params _ true`: the concatenation, over the
declared names in order, of the flattened parameters of a nested
estimator value followed by the entry for the name itself. -/
def gpSpec : ℕ → List (List Char) → List (List Char × PValue) →
    List (List Char × PValue)
  | 0, _, _ => []
  | fuel + 1, names, attrs =>
    (names.map (fun key =>
      match (lookupAttr attrs key).getD PValue.none_ with
      | PValue.est ns ats =>
        flattenSub key (gpSpec fuel ns ats) ++ [(key, PValue.est ns ats)]
      | v => [(key, v)])).flatten

/-- The per-name block of `gpSpec`. -/
def gpBlock (fuel : ℕ) (attrs : List (List Char × PValue))
    (key : List Char) : List (List Char × PValue) :=
  match (lookupAttr attrs key).getD PValue.none_ with
  | PValue.est ns ats =>
    flattenSub key (gpSpec fuel ns ats) ++ [(key, PValue.est ns ats)]
  | v => [(key, v)]

/-- The nested-parameter groups that the `set_params` loop collects when
fed the full `get_params` output: one group per declared name bound to a
nested estimator with at least one flattened entry. -/
def nestedSpec (fuel : ℕ) (attrs : List (List Char × PValue))
    (names : List (List Char)) :
    List (List Char × List (List Char × PValue)) :=
  names.filterMap (fun key =>
    match lookupAttr attrs key with
    | some (PValue.est ns ats) =>
      if (gpSpec fuel ns ats).isEmpty then none
      else some (key, gpSpec fuel ns ats)
    | _ => none)

/-- Facts about one declared parameter name used while characterising
`get_params`: the name is `'__'`-free, does not end in `'_'`, is bound in
the attribute dictionary, and a nested-estimator value satisfies the
closed form of `get_params` with duplicate-free output keys. -/
def HK (fuel : ℕ) (attrs : List (List Char × PValue))
    (key : List Char) : Prop :=
  splitDunder key = none ∧ key.getLast? ≠ some '_' ∧
    ∃ v, lookupAttr attrs key = some v ∧
      ∀ ns ats, v = PValue.est ns ats →
        get_params fuel true ns ats = gpSpec fuel ns ats ∧
          ((gpSpec fuel ns ats).map Prod.fst).Nodup

/-- Facts about one declared parameter name used while characterising
the `set_params` loop. -/
def SK (fuel : ℕ) (attrs : List (List Char × PValue))
    (validKeys : List (List Char)) (key : List Char) : Prop :=
  splitDunder key = none ∧ key.getLast? ≠ some '_' ∧ key ∈ validKeys ∧
    ∃ v, lookupAttr attrs key = some v ∧
      ∀ ns ats, v = PValue.est ns ats →
        ((gpSpec fuel ns ats).map Prod.fst).Nodup

attribute [local semireducible] Rat.add Rat.mul Rat.inv Rat.sub

/-! Helper lemmas. -/

theorem clip01_nonneg (x : ℚ) : 0 ≤ clip01 x :=
  le_min (le_max_right x 0) zero_le_one

theorem clip01_le_one (x : ℚ) : clip01 x ≤ 1 := min_le_right _ _

theorem binomCdf_nonneg (x : ℤ) (n : ℕ) (p : ℚ) (h0 : 0 ≤ p) (h1 : p ≤ 1) :
    0 ≤ binomCdf x n p := by
  unfold binomCdf
  refine Finset.sum_nonneg fun k _ => ?_
  split
  · have hq : (0:ℚ) ≤ 1 - p := by linarith
    positivity
  · exact le_refl 0

theorem binomCdf_le_one (x : ℤ) (n : ℕ) (p : ℚ) (h0 : 0 ≤ p) (h1 : p ≤ 1) :
    binomCdf x n p ≤ 1 := by
  unfold binomCdf
  have hq : (0:ℚ) ≤ 1 - p := by linarith
  have hle : (∑ k ∈ Finset.range (n + 1),
      if (k : ℤ) ≤ x then (n.choose k : ℚ) * p ^ k * (1 - p) ^ (n - k) else 0)
      ≤ ∑ k ∈ Finset.range (n + 1), (n.choose k : ℚ) * p ^ k * (1 - p) ^ (n - k) := by
    refine Finset.sum_le_sum fun k _ => ?_
    split
    · exact le_refl _
    · positivity
  refine hle.trans ?_
  have hpow := add_pow p (1 - p) n
  have hsum : ∑ k ∈ Finset.range (n + 1), (n.choose k : ℚ) * p ^ k * (1 - p) ^ (n - k)
      = (p + (1 - p)) ^ n := by
    rw [hpow]
    exact Finset.sum_congr rfl fun k _ => by ring
  rw [hsum]
  have : p + (1 - p) = 1 := by ring
  rw [this, one_pow]

/-! Association-list and key-splitting lemmas. -/

theorem lookupAttr_eq_none {d : List (List Char × PValue)} {k : List Char} :
    lookupAttr d k = none ↔ k ∉ d.map Prod.fst := by
  induction d with
  | nil => exact ⟨fun _ => List.not_mem_nil k, fun _ => rfl⟩
  | cons kv rest ih =>
    obtain ⟨k', v'⟩ := kv
    rw [List.map_cons, List.mem_cons, lookupAttr]
    by_cases h : k' = k
    · rw [if_pos h]
      exact ⟨fun hn => absurd hn (by simp), fun hn => absurd (Or.inl h.symm) hn⟩
    · rw [if_neg h, ih]
      constructor
      · intro hn hmem
        rcases hmem with he | hm
        · exact h he.symm
        · exact hn hm
      · intro hn hm
        exact hn (Or.inr hm)

theorem dictInsert_of_lookup {d : List (List Char × PValue)} {k : List Char}
    {v : PValue} (h : lookupAttr d k = some v) : dictInsert d k v = d := by
  induction d with
  | nil => simp [lookupAttr] at h
  | cons kv rest ih =>
    obtain ⟨k', v'⟩ := kv
    by_cases hk : k' = k
    · rw [lookupAttr, if_pos hk] at h
      rw [dictInsert, if_pos hk, Option.some.inj h]
    · rw [lookupAttr, if_neg hk] at h
      rw [dictInsert, if_neg hk, ih h]

theorem dictInsert_fresh {d : List (List Char × PValue)} {k : List Char}
    (v : PValue) (h : lookupAttr d k = none) :
    dictInsert d k v = d ++ [(k, v)] := by
  induction d with
  | nil => rfl
  | cons kv rest ih =>
    obtain ⟨k', v'⟩ := kv
    by_cases hk : k' = k
    · rw [lookupAttr, if_pos hk] at h
      cases h
    · rw [lookupAttr, if_neg hk] at h
      rw [dictInsert, if_neg hk, ih h, List.cons_append]

theorem lookupAttr_append_left_none {d1 d2 : List (List Char × PValue)}
    {k : List Char} (h : lookupAttr d1 k = none) :
    lookupAttr (d1 ++ d2) k = lookupAttr d2 k := by
  induction d1 with
  | nil => rfl
  | cons kv rest ih =>
    obtain ⟨k', v'⟩ := kv
    by_cases hk : k' = k
    · rw [lookupAttr, if_pos hk] at h
      cases h
    · rw [lookupAttr, if_neg hk] at h
      rw [List.cons_append, lookupAttr, if_neg hk, ih h]

theorem foldl_dictInsert_append :
    ∀ (items out : List (List Char × PValue)),
    (∀ kv ∈ items, lookupAttr out kv.1 = none) →
    (items.map Prod.fst).Nodup →
    items.foldl (fun o kv => dictInsert o kv.1 kv.2) out = out ++ items := by
  intro items
  induction items with
  | nil => intro out _ _; simp
  | cons kv rest ih =>
    intro out hfresh hnodup
    obtain ⟨k, v⟩ := kv
    rw [List.foldl_cons]
    have h0 : lookupAttr out k = none := hfresh (k, v) (by simp)
    rw [show dictInsert out k v = out ++ [(k, v)] from dictInsert_fresh v h0]
    rw [List.map_cons, List.nodup_cons] at hnodup
    rw [ih (out ++ [(k, v)]) ?_ hnodup.2]
    · simp
    · intro kv' hkv'
      have h1 : lookupAttr out kv'.1 = none := hfresh kv' (by simp [hkv'])
      have h2 : k ≠ kv'.1 := fun he => hnodup.1 (by
        rw [he]
        exact List.mem_map.mpr ⟨kv', hkv', rfl⟩)
      rw [lookupAttr_append_left_none h1, lookupAttr, if_neg h2]
      rfl

theorem splitDunder_cons_cons (c d : Char) (rest : List Char) :
    splitDunder (c :: d :: rest)
      = if c = '_' ∧ d = '_' then some ([], rest)
        else match splitDunder (d :: rest) with
          | none => none
          | some (a, b) => some (c :: a, b) := rfl

theorem splitDunder_append (s : List Char) :
    ∀ (k : List Char), splitDunder k = none → k.getLast? ≠ some '_' →
    splitDunder (k ++ '_' :: '_' :: s) = some (k, s) := by
  intro k
  induction k with
  | nil =>
    intro _ _
    rw [List.nil_append, splitDunder_cons_cons, if_pos ⟨rfl, rfl⟩]
  | cons c tail ih =>
    intro hsplit hlast
    cases tail with
    | nil =>
      have hc : ¬(c = '_' ∧ '_' = '_') := by
        intro ⟨hc, _⟩
        exact hlast (by rw [hc]; rfl)
      rw [List.cons_append, List.nil_append, splitDunder_cons_cons, if_neg hc,
        splitDunder_cons_cons, if_pos ⟨rfl, rfl⟩]
    | cons d rest =>
      rw [splitDunder_cons_cons] at hsplit
      by_cases hcd : c = '_' ∧ d = '_'
      · rw [if_pos hcd] at hsplit
        cases hsplit
      · rw [if_neg hcd] at hsplit
        have htail : splitDunder (d :: rest) = none := by
          cases he : splitDunder (d :: rest) with
          | none => rfl
          | some p =>
            obtain ⟨a, b⟩ := p
            rw [he] at hsplit
            cases hsplit
        have hlast2 : (d :: rest).getLast? ≠ some '_' := by
          rwa [List.getLast?_cons_cons] at hlast
        have hrec := ih htail hlast2
        rw [List.cons_append] at hrec
        rw [List.cons_append, List.cons_append, splitDunder_cons_cons,
          if_neg hcd, hrec]

theorem splitDunder_join_ne {key s : List Char} :
    key ≠ key ++ '_' :: '_' :: s := by
  intro he
  have hlen := congrArg List.length he
  rw [List.length_append, List.length_cons, List.length_cons] at hlen
  omega

theorem partitionKey_plain {key : List Char} (h : splitDunder key = none) :
    partitionKey key = (key, false, []) := by
  rw [partitionKey, h]

theorem partitionKey_join {key : List Char} (s : List Char)
    (hs : splitDunder key = none) (hl : key.getLast? ≠ some '_') :
    partitionKey (key ++ '_' :: '_' :: s) = (key, true, s) := by
  rw [partitionKey, splitDunder_append s key hs hl]

theorem flattenSub_keys {key : List Char}
    {sub : List (List Char × PValue)} :
    (flattenSub key sub).map Prod.fst
      = (sub.map Prod.fst).map (fun s0 => key ++ '_' :: '_' :: s0) := by
  rw [flattenSub, List.map_map, List.map_map]
  rfl

theorem flattenSub_keys_nodup {key : List Char}
    {sub : List (List Char × PValue)} (h : (sub.map Prod.fst).Nodup) :
    ((flattenSub key sub).map Prod.fst).Nodup := by
  rw [flattenSub_keys]
  refine h.map fun a b hab => ?_
  have h2 := List.append_cancel_left hab
  simpa using h2

theorem gpSpec_succ (fuel : ℕ) (names : List (List Char))
    (attrs : List (List Char × PValue)) :
    gpSpec (fuel + 1) names attrs
      = (names.map (gpBlock fuel attrs)).flatten := rfl

theorem gpBlock_top {fuel : ℕ} {attrs : List (List Char × PValue)}
    {key : List Char} (hs : splitDunder key = none)
    (hl : key.getLast? ≠ some '_') :
    ∀ kv ∈ gpBlock fuel attrs key, (partitionKey kv.1).1 = key := by
  intro kv hkv
  rw [gpBlock] at hkv
  cases hv : (lookupAttr attrs key).getD PValue.none_ with
  | est ns ats =>
    rw [hv] at hkv
    rcases List.mem_append.mp hkv with hkv | hkv
    · obtain ⟨sw, _, hsw⟩ := List.mem_map.mp hkv
      rw [← hsw]
      rw [partitionKey_join sw.1 hs hl]
    · rw [List.mem_singleton.mp hkv, partitionKey_plain hs]
  | num q =>
    rw [hv] at hkv
    rw [List.mem_singleton.mp hkv, partitionKey_plain hs]
  | none_ =>
    rw [hv] at hkv
    rw [List.mem_singleton.mp hkv, partitionKey_plain hs]

theorem gpBlock_keys_nodup {fuel : ℕ} {attrs : List (List Char × PValue)}
    {key : List Char} (hs : splitDunder key = none)
    (hsub : ∀ ns ats,
      (lookupAttr attrs key).getD PValue.none_ = PValue.est ns ats →
      ((gpSpec fuel ns ats).map Prod.fst).Nodup) :
    ((gpBlock fuel attrs key).map Prod.fst).Nodup := by
  rw [gpBlock]
  cases hv : (lookupAttr attrs key).getD PValue.none_ with
  | est ns ats =>
    rw [List.map_append, List.nodup_append]
    refine ⟨flattenSub_keys_nodup (hsub ns ats hv), by simp, ?_⟩
    intro a ha hb
    rw [List.map_singleton, List.mem_singleton] at hb
    subst hb
    rw [flattenSub_keys] at ha
    obtain ⟨s0, _, hs0⟩ := List.mem_map.mp ha
    exact splitDunder_join_ne hs0.symm
  | num q => simp
  | none_ => simp

theorem gpBlock_self_mem {fuel : ℕ} {attrs : List (List Char × PValue)}
    {key : List Char} :
    (key, (lookupAttr attrs key).getD PValue.none_)
      ∈ gpBlock fuel attrs key := by
  rw [gpBlock]
  cases hv : (lookupAttr attrs key).getD PValue.none_ with
  | est ns ats => exact List.mem_append_right _ (by simp)
  | num q => simp
  | none_ => simp

theorem gpSpec_top {fuel : ℕ} {attrs : List (List Char × PValue)} :
    ∀ (names : List (List Char)),
    (∀ k ∈ names, splitDunder k = none ∧ k.getLast? ≠ some '_') →
    ∀ kv ∈ gpSpec (fuel + 1) names attrs, (partitionKey kv.1).1 ∈ names := by
  intro names hn kv hkv
  rw [gpSpec_succ] at hkv
  obtain ⟨blk, hblk, hkvb⟩ := List.mem_flatten.mp hkv
  obtain ⟨key, hkey, hb⟩ := List.mem_map.mp hblk
  obtain ⟨h1, h2⟩ := hn key hkey
  rw [← hb] at hkvb
  rw [gpBlock_top h1 h2 kv hkvb]
  exact hkey

theorem gpSpec_keys_nodup {fuel : ℕ} {attrs : List (List Char × PValue)} :
    ∀ (names : List (List Char)),
    names.Nodup →
    (∀ k ∈ names, splitDunder k = none ∧ k.getLast? ≠ some '_' ∧
      ∀ ns ats, (lookupAttr attrs k).getD PValue.none_ = PValue.est ns ats →
        ((gpSpec fuel ns ats).map Prod.fst).Nodup) →
    ((gpSpec (fuel + 1) names attrs).map Prod.fst).Nodup := by
  intro names
  induction names with
  | nil => intro _ _; simp [gpSpec_succ]
  | cons key rest ih =>
    intro hnd hks
    rw [List.nodup_cons] at hnd
    obtain ⟨h1, h2, h3⟩ := hks key (by simp)
    rw [gpSpec_succ, List.map_cons, List.flatten_cons, List.map_append,
      List.nodup_append]
    refine ⟨gpBlock_keys_nodup h1 h3, ?_, ?_⟩
    · have := ih hnd.2 (fun k hk => hks k (List.mem_cons_of_mem _ hk))
      rwa [gpSpec_succ] at this
    · intro a ha hb
      obtain ⟨kv, hkv, hkva⟩ := List.mem_map.mp ha
      have htopa : (partitionKey a).1 = key := by
        rw [← hkva]
        exact gpBlock_top h1 h2 kv hkv
      obtain ⟨kv', hkv', hkva'⟩ := List.mem_map.mp hb
      have hkv2 : kv' ∈ gpSpec (fuel + 1) rest attrs := by
        rw [gpSpec_succ]
        exact hkv'
      have htopb : (partitionKey a).1 ∈ rest := by
        rw [← hkva']
        exact gpSpec_top rest
          (fun k hk => ⟨(hks k (List.mem_cons_of_mem _ hk)).1,
            (hks k (List.mem_cons_of_mem _ hk)).2.1⟩) kv' hkv2
      rw [htopa] at htopb
      exact hnd.1 htopb

theorem wfE_elim {fuel : ℕ} {names : List (List Char)}
    {attrs : List (List Char × PValue)}
    (h : wfE (fuel + 1) names attrs = true) :
    names.Nodup ∧ ∀ k ∈ names, splitDunder k = none ∧
      k.getLast? ≠ some '_' ∧
      ∃ v, lookupAttr attrs k = some v ∧
        ∀ ns ats, v = PValue.est ns ats → wfE fuel ns ats = true := by
  rw [wfE, Bool.and_eq_true, List.all_eq_true] at h
  obtain ⟨h1, h2⟩ := h
  refine ⟨of_decide_eq_true h1, fun k hk => ?_⟩
  have h3 := h2 k hk
  rw [Bool.and_eq_true, Bool.and_eq_true] at h3
  obtain ⟨⟨hs, hl⟩, hm⟩ := h3
  refine ⟨Option.isNone_iff_eq_none.mp hs, of_decide_eq_true hl, ?_⟩
  cases hlk : lookupAttr attrs k with
  | none =>
    rw [hlk] at hm
    exact absurd hm (by simp)
  | some v =>
    refine ⟨v, rfl, fun ns ats hv => ?_⟩
    rw [hlk, hv] at hm
    exact hm

/-- The accumulator loop of `get_params` over well-behaved names appends
one `gpBlock` per name. -/
theorem foldl_blocks (fuel : ℕ) (attrs : List (List Char × PValue))
    (f : List (List Char × PValue) → List Char → List (List Char × PValue))
    (hf : ∀ out key, HK fuel attrs key →
      (∀ k' ∈ out.map Prod.fst, (partitionKey k').1 ≠ key) →
      f out key = out ++ gpBlock fuel attrs key) :
    ∀ (names2 : List (List Char)) (out : List (List Char × PValue)),
    (∀ k ∈ names2, HK fuel attrs k) → names2.Nodup →
    (∀ k' ∈ out.map Prod.fst, (partitionKey k').1 ∉ names2) →
    List.foldl f out names2 = out ++ (names2.map (gpBlock fuel attrs)).flatten := by
  intro names2
  induction names2 with
  | nil => intro out _ _ _; simp
  | cons key rest ih =>
    intro out hks hnd hfr
    rw [List.nodup_cons] at hnd
    rw [List.foldl_cons,
      hf out key (hks key (by simp))
        (fun k' hk' he => hfr k' hk' (by rw [he]; simp))]
    rw [ih (out ++ gpBlock fuel attrs key)
      (fun k hk => hks k (List.mem_cons_of_mem _ hk)) hnd.2 ?_]
    · rw [List.map_cons, List.flatten_cons, List.append_assoc]
    · intro k' hk' hmem
      rw [List.map_append] at hk'
      rcases List.mem_append.mp hk' with hk' | hk'
      · exact hfr k' hk' (List.mem_cons_of_mem _ hmem)
      · obtain ⟨kv, hkv, hkva⟩ := List.mem_map.mp hk'
        obtain ⟨hs, hl, _⟩ := hks key (by simp)
        have : (partitionKey k').1 = key := by
          rw [← hkva]
          exact gpBlock_top hs hl kv hkv
        rw [this] at hmem
        exact hnd.1 hmem

theorem gpBlock_of_lookup_est {fuel : ℕ} {attrs : List (List Char × PValue)}
    {key ns ats} (h : lookupAttr attrs key = some (PValue.est ns ats)) :
    gpBlock fuel attrs key
      = flattenSub key (gpSpec fuel ns ats) ++ [(key, PValue.est ns ats)] := by
  simp only [gpBlock, h, Option.getD_some]

theorem gpBlock_of_lookup_num {fuel : ℕ} {attrs : List (List Char × PValue)}
    {key : List Char} {q : ℚ} (h : lookupAttr attrs key = some (PValue.num q)) :
    gpBlock fuel attrs key = [(key, PValue.num q)] := by
  simp only [gpBlock, h, Option.getD_some]

theorem gpBlock_of_lookup_none {fuel : ℕ} {attrs : List (List Char × PValue)}
    {key : List Char} (h : lookupAttr attrs key = some PValue.none_) :
    gpBlock fuel attrs key = [(key, PValue.none_)] := by
  simp only [gpBlock, h, Option.getD_some]

/-- `get_params` with `deep = true` equals its closed form `gpSpec`, and
the keys of that closed form are duplicate-free, on every well-formed
estimator. -/
theorem gp_main : ∀ (fuel : ℕ) (names : List (List Char))
    (attrs : List (List Char × PValue)), wfE fuel names attrs = true →
    get_params fuel true names attrs = gpSpec fuel names attrs ∧
    ((gpSpec fuel names attrs).map Prod.fst).Nodup := by
  intro fuel
  induction fuel with
  | zero =>
    intro names attrs h
    rw [wfE] at h
    cases h
  | succ fuel ih =>
    intro names attrs h
    obtain ⟨hnd, hkeys⟩ := wfE_elim h
    have hHK : ∀ k ∈ names, HK fuel attrs k := by
      intro k hk
      obtain ⟨hs, hl, v, hv, hnest⟩ := hkeys k hk
      exact ⟨hs, hl, v, hv, fun ns ats hvv => ih ns ats (hnest ns ats hvv)⟩
    constructor
    · rw [get_params]
      refine (foldl_blocks fuel attrs _ ?_ names [] hHK hnd (by simp)).trans ?_
      · intro out key hk hfr
        obtain ⟨hs, hl, v, hv, hnest⟩ := hk
        simp only [hv, Option.getD_some]
        have hfr2 : ∀ j, (partitionKey j).1 = key → lookupAttr out j = none := by
          intro j hj
          rw [lookupAttr_eq_none]
          intro hmem
          exact hfr j hmem hj
        cases v with
        | est ns ats =>
          obtain ⟨hgp, hnodup⟩ := hnest ns ats rfl
          have hfresh1 : ∀ kv ∈ (gpSpec fuel ns ats).map
              (fun kv => (key ++ '_' :: '_' :: kv.1, kv.2)),
              lookupAttr out kv.1 = none := by
            intro kv hkv
            obtain ⟨kv0, _, hkv0⟩ := List.mem_map.mp hkv
            refine hfr2 kv.1 ?_
            have hkv1 : kv.1 = key ++ '_' :: '_' :: kv0.1 := by rw [← hkv0]
            rw [hkv1, partitionKey_join kv0.1 hs hl]
          have hnodup1 : (((gpSpec fuel ns ats).map
              (fun kv => (key ++ '_' :: '_' :: kv.1, kv.2))).map
              Prod.fst).Nodup :=
            flattenSub_keys_nodup hnodup
          have hkeyfresh : lookupAttr (out ++ (gpSpec fuel ns ats).map
              (fun kv => (key ++ '_' :: '_' :: kv.1, kv.2))) key = none := by
            rw [lookupAttr_append_left_none
              (hfr2 key (by rw [partitionKey_plain hs]))]
            rw [lookupAttr_eq_none]
            intro hmem
            rw [List.map_map] at hmem
            obtain ⟨kv0, _, hkv0⟩ := List.mem_map.mp hmem
            exact splitDunder_join_ne (congrArg id hkv0).symm
          show dictInsert
              (((get_params fuel true ns ats).map
                (fun kv => (key ++ '_' :: '_' :: kv.1, kv.2))).foldl
                (fun o kv => dictInsert o kv.1 kv.2) out)
              key (PValue.est ns ats)
            = out ++ gpBlock fuel attrs key
          rw [hgp, foldl_dictInsert_append _ out hfresh1 hnodup1,
            dictInsert_fresh _ hkeyfresh, gpBlock_of_lookup_est hv,
            List.append_assoc]
          rfl
        | num q =>
          show dictInsert out key (PValue.num q)
            = out ++ gpBlock fuel attrs key
          rw [dictInsert_fresh _ (hfr2 key (by rw [partitionKey_plain hs])),
            gpBlock_of_lookup_num hv]
        | none_ =>
          show dictInsert out key PValue.none_
            = out ++ gpBlock fuel attrs key
          rw [dictInsert_fresh _ (hfr2 key (by rw [partitionKey_plain hs])),
            gpBlock_of_lookup_none hv]
      · rw [List.nil_append, gpSpec_succ]
    · refine gpSpec_keys_nodup names hnd ?_
      intro k hk
      obtain ⟨hs, hl, v, hv, hnest⟩ := hkeys k hk
      refine ⟨hs, hl, fun ns ats hvv => ?_⟩
      rw [hv, Option.getD_some] at hvv
      exact (ih ns ats (hnest ns ats hvv)).2

theorem gpSpec_self_mem {fuel : ℕ} {names : List (List Char)}
    {attrs : List (List Char × PValue)} {key : List Char} (hk : key ∈ names) :
    (key, (lookupAttr attrs key).getD PValue.none_)
      ∈ gpSpec (fuel + 1) names attrs := by
  rw [gpSpec_succ]
  exact List.mem_flatten.mpr
    ⟨gpBlock fuel attrs key, List.mem_map_of_mem _ hk, gpBlock_self_mem⟩

theorem foldl_shallow (attrs : List (List Char × PValue))
    (f : List (List Char × PValue) → List Char → List (List Char × PValue))
    (hf : ∀ out key, f out key
      = dictInsert out key ((lookupAttr attrs key).getD PValue.none_)) :
    ∀ (names2 : List (List Char)) (out : List (List Char × PValue)),
    names2.Nodup →
    (∀ k ∈ names2, lookupAttr out k = none) →
    List.foldl f out names2
      = out ++ names2.map (fun k => (k, (lookupAttr attrs k).getD PValue.none_)) := by
  intro names2
  induction names2 with
  | nil => intro out _ _; simp
  | cons key rest ih =>
    intro out hnd hfr
    rw [List.nodup_cons] at hnd
    rw [List.foldl_cons, hf, dictInsert_fresh _ (hfr key (by simp))]
    rw [ih _ hnd.2 ?_]
    · simp
    · intro k hk
      rw [lookupAttr_append_left_none (hfr k (List.mem_cons_of_mem _ hk)),
        lookupAttr, if_neg (fun he => hnd.1 (by rw [he]; exact hk))]
      rfl

/-- `get_params` with `deep = false` lists the declared names with their
current values, in order. -/
theorem get_params_shallow (fuel : ℕ) (names : List (List Char))
    (attrs : List (List Char × PValue)) (hnd : names.Nodup) :
    get_params (fuel + 1) false names attrs
      = names.map (fun k => (k, (lookupAttr attrs k).getD PValue.none_)) := by
  rw [get_params]
  exact (foldl_shallow attrs _ (fun out key => rfl) names [] hnd
    (fun k _ => rfl)).trans (by simp)

theorem nestedInsert_fresh
    {nd : List (List Char × List (List Char × PValue))} {k : List Char}
    (hk : k ∉ nd.map Prod.fst) (sub : List Char) (v : PValue) :
    nestedInsert nd k sub v = nd ++ [(k, [(sub, v)])] := by
  induction nd with
  | nil => rfl
  | cons kd rest ih =>
    obtain ⟨k', d⟩ := kd
    rw [List.map_cons, List.mem_cons] at hk
    push_neg at hk
    rw [nestedInsert, if_neg (fun he => hk.1 he.symm), ih hk.2,
      List.cons_append]

theorem nestedInsert_append
    {nd : List (List Char × List (List Char × PValue))} {k : List Char}
    (hk : k ∉ nd.map Prod.fst) (g : List (List Char × PValue))
    (sub : List Char) (v : PValue) :
    nestedInsert (nd ++ [(k, g)]) k sub v
      = nd ++ [(k, dictInsert g sub v)] := by
  induction nd with
  | nil => simp [nestedInsert]
  | cons kd rest ih =>
    obtain ⟨k', d⟩ := kd
    rw [List.map_cons, List.mem_cons] at hk
    push_neg at hk
    rw [List.cons_append, nestedInsert, if_neg (fun he => hk.1 he.symm),
      ih hk.2, List.cons_append]

theorem set_params_go_append {names vk : List (List Char)} :
    ∀ (l1 : List (List Char × PValue))
      {attrs : List (List Char × PValue)}
      {nested : List (List Char × List (List Char × PValue))}
      {attrs1 nested1},
    set_params_go names vk attrs nested l1 = (attrs1, nested1, none) →
    ∀ l2, set_params_go names vk attrs nested (l1 ++ l2)
      = set_params_go names vk attrs1 nested1 l2 := by
  intro l1
  induction l1 with
  | nil =>
    intro attrs nested attrs1 nested1 h l2
    rw [set_params_go] at h
    injection h with h1 h23
    injection h23 with h2 h3
    subst h1
    subst h2
    rfl
  | cons kv rest ih =>
    intro attrs nested attrs1 nested1 h l2
    rw [List.cons_append]
    rw [set_params_go] at h ⊢
    by_cases hmem : (partitionKey kv.1).1 ∈ vk
    · rw [if_pos hmem] at h ⊢
      by_cases hdelim : (partitionKey kv.1).2.1 = true
      · rw [if_pos hdelim] at h ⊢
        exact ih h l2
      · rw [Bool.not_eq_true] at hdelim
        rw [hdelim] at h ⊢
        rw [if_neg (by simp)] at h ⊢
        exact ih h l2
    · rw [if_neg hmem] at h
      cases congrArg (fun x => x.2.2) h

theorem set_params_go_plain {names vk : List (List Char)}
    {attrs : List (List Char × PValue)}
    {nested : List (List Char × List (List Char × PValue))}
    {key : List Char} {v : PValue}
    (hs : splitDunder key = none) (hvk : key ∈ vk)
    (hlook : lookupAttr attrs key = some v) :
    set_params_go names vk attrs nested [(key, v)] = (attrs, nested, none) := by
  rw [set_params_go]
  simp only [partitionKey_plain hs]
  rw [if_pos hvk, if_neg (by simp), dictInsert_of_lookup hlook]
  rfl

theorem set_params_go_flatten_aux {names vk : List (List Char)}
    {attrs : List (List Char × PValue)} {key : List Char}
    (hs : splitDunder key = none) (hl : key.getLast? ≠ some '_')
    (hvk : key ∈ vk) :
    ∀ (sub : List (List Char × PValue))
      (g : List (List Char × PValue))
      (nested : List (List Char × List (List Char × PValue))),
    key ∉ nested.map Prod.fst →
    (∀ s ∈ sub.map Prod.fst, lookupAttr g s = none) →
    (sub.map Prod.fst).Nodup →
    set_params_go names vk attrs (nested ++ [(key, g)]) (flattenSub key sub)
      = (attrs, nested ++ [(key, g ++ sub)], none) := by
  intro sub
  induction sub with
  | nil =>
    intro g nested _ _ _
    rw [flattenSub, List.map_nil, set_params_go, List.append_nil]
  | cons sw rest ih =>
    intro g nested hfresh hg hnd
    obtain ⟨s, w⟩ := sw
    rw [List.map_cons, List.nodup_cons] at hnd
    rw [flattenSub, List.map_cons, set_params_go]
    simp only [partitionKey_join s hs hl]
    rw [if_pos hvk, if_pos trivial,
      nestedInsert_append hfresh g s w,
      dictInsert_fresh w (hg s (by
        rw [List.map_cons]
        exact List.mem_cons_self _ _))]
    have := ih (g ++ [(s, w)]) nested hfresh ?_ hnd.2
    · rw [show (List.map (fun kv => (key ++ '_' :: '_' :: kv.1, kv.2)) rest)
        = flattenSub key rest from rfl, this, List.append_assoc,
        List.singleton_append]
    · intro s' hs'
      rw [lookupAttr_append_left_none (hg s' (List.mem_cons_of_mem _ hs')),
        lookupAttr, if_neg (fun he => hnd.1 (by rw [he]; exact hs'))]
      rfl

theorem set_params_go_block_est {fuel : ℕ} {names vk : List (List Char)}
    {attrs : List (List Char × PValue)}
    {nested : List (List Char × List (List Char × PValue))}
    {key ns ats} (hs : splitDunder key = none)
    (hl : key.getLast? ≠ some '_') (hvk : key ∈ vk)
    (hlook : lookupAttr attrs key = some (PValue.est ns ats))
    (hfresh : key ∉ nested.map Prod.fst)
    (hnd : ((gpSpec fuel ns ats).map Prod.fst).Nodup) :
    set_params_go names vk attrs nested
        (flattenSub key (gpSpec fuel ns ats) ++ [(key, PValue.est ns ats)])
      = (attrs,
          (if (gpSpec fuel ns ats).isEmpty then nested
            else nested ++ [(key, gpSpec fuel ns ats)]), none) := by
  cases hsub : gpSpec fuel ns ats with
  | nil =>
    rw [flattenSub, List.map_nil, List.nil_append, List.isEmpty_nil,
      if_pos rfl]
    exact set_params_go_plain hs hvk hlook
  | cons sw rest =>
    rw [List.isEmpty_cons, if_neg (by simp)]
    obtain ⟨s, w⟩ := sw
    rw [hsub, List.map_cons, List.nodup_cons] at hnd
    have hstep1 : set_params_go names vk attrs nested
        [(key ++ '_' :: '_' :: s, w)]
        = (attrs, nested ++ [(key, [(s, w)])], none) := by
      rw [set_params_go]
      simp only [partitionKey_join s hs hl]
      rw [if_pos hvk, if_pos trivial, nestedInsert_fresh hfresh s w]
      rfl
    have hflat : flattenSub key ((s, w) :: rest)
        = (key ++ '_' :: '_' :: s, w) :: flattenSub key rest := rfl
    rw [hflat, show ((key ++ '_' :: '_' :: s, w) :: flattenSub key rest)
        ++ [(key, PValue.est ns ats)]
      = [(key ++ '_' :: '_' :: s, w)] ++ (flattenSub key rest
        ++ [(key, PValue.est ns ats)]) from by simp]
    rw [set_params_go_append _ hstep1]
    rw [set_params_go_append (flattenSub key rest)
      (set_params_go_flatten_aux hs hl hvk rest [(s, w)] nested hfresh ?_ hnd.2)]
    · rw [set_params_go_plain hs hvk hlook, List.singleton_append]
    · intro s' hs'
      rw [lookupAttr, if_neg (fun he => hnd.1 (by rw [he]; exact hs'))]
      rfl

theorem nestedSpec_cons_est {fuel : ℕ}
    {attrs : List (List Char × PValue)} {key ns ats}
    {rest : List (List Char)}
    (h : lookupAttr attrs key = some (PValue.est ns ats)) :
    nestedSpec fuel attrs (key :: rest)
      = if (gpSpec fuel ns ats).isEmpty then nestedSpec fuel attrs rest
        else (key, gpSpec fuel ns ats) :: nestedSpec fuel attrs rest := by
  simp only [nestedSpec, List.filterMap_cons, h]
  cases hemp : (gpSpec fuel ns ats).isEmpty <;> rfl

theorem nestedSpec_cons_num {fuel : ℕ}
    {attrs : List (List Char × PValue)} {key : List Char} {q : ℚ}
    {rest : List (List Char)}
    (h : lookupAttr attrs key = some (PValue.num q)) :
    nestedSpec fuel attrs (key :: rest) = nestedSpec fuel attrs rest := by
  simp only [nestedSpec, List.filterMap_cons, h]

theorem nestedSpec_cons_none {fuel : ℕ}
    {attrs : List (List Char × PValue)} {key : List Char}
    {rest : List (List Char)}
    (h : lookupAttr attrs key = some PValue.none_) :
    nestedSpec fuel attrs (key :: rest) = nestedSpec fuel attrs rest := by
  simp only [nestedSpec, List.filterMap_cons, h]

theorem set_params_go_loop {fuel : ℕ} {names vk : List (List Char)}
    {attrs : List (List Char × PValue)} :
    ∀ (names2 : List (List Char))
      (nested : List (List Char × List (List Char × PValue))),
    names2.Nodup →
    (∀ k ∈ names2, SK fuel attrs vk k) →
    (∀ k ∈ names2, k ∉ nested.map Prod.fst) →
    set_params_go names vk attrs nested
        ((names2.map (gpBlock fuel attrs)).flatten)
      = (attrs, nested ++ nestedSpec fuel attrs names2, none) := by
  intro names2
  induction names2 with
  | nil =>
    intro nested _ _ _
    rw [List.map_nil, List.flatten_nil, set_params_go, nestedSpec,
      List.filterMap_nil, List.append_nil]
  | cons key rest ih =>
    intro nested hnd hks hfr
    rw [List.nodup_cons] at hnd
    obtain ⟨hs, hl, hvk, v, hlook, hnest⟩ := hks key (by simp)
    rw [List.map_cons, List.flatten_cons]
    have hrest_sk : ∀ k ∈ rest, SK fuel attrs vk k :=
      fun k hk => hks k (List.mem_cons_of_mem _ hk)
    cases v with
    | est ns ats =>
      rw [gpBlock_of_lookup_est hlook]
      rw [set_params_go_append _
        (set_params_go_block_est hs hl hvk hlook (hfr key (by simp))
          (hnest ns ats rfl))]
      cases hemp : (gpSpec fuel ns ats).isEmpty with
      | true =>
        rw [if_pos rfl]
        rw [ih _ hnd.2 hrest_sk (fun k hk => hfr k (List.mem_cons_of_mem _ hk))]
        rw [nestedSpec_cons_est hlook, hemp, if_pos rfl]
      | false =>
        rw [if_neg (by simp)]
        rw [ih _ hnd.2 hrest_sk ?_]
        · rw [nestedSpec_cons_est hlook, hemp, if_neg (by simp),
            List.append_assoc, List.singleton_append]
        · intro k hk
          rw [List.map_append, List.mem_append]
          rintro (hmem | hmem)
          · exact hfr k (List.mem_cons_of_mem _ hk) hmem
          · rw [List.map_singleton, List.mem_singleton] at hmem
            have hkk : k = key := hmem
            exact hnd.1 (hkk ▸ hk)
    | num q =>
      rw [gpBlock_of_lookup_num hlook,
        set_params_go_append _ (set_params_go_plain hs hvk hlook),
        ih _ hnd.2 hrest_sk (fun k hk => hfr k (List.mem_cons_of_mem _ hk)),
        nestedSpec_cons_num hlook]
    | none_ =>
      rw [gpBlock_of_lookup_none hlook,
        set_params_go_append _ (set_params_go_plain hs hvk hlook),
        ih _ hnd.2 hrest_sk (fun k hk => hfr k (List.mem_cons_of_mem _ hk)),
        nestedSpec_cons_none hlook]

theorem apply_nested_fold {fuel : ℕ} :
    ∀ (entries : List (List Char × List (List Char × PValue)))
      (attrs : List (List Char × PValue)),
    (∀ kp ∈ entries, ∃ ns ats,
      lookupAttr attrs kp.1 = some (PValue.est ns ats) ∧
      kp.2 = gpSpec fuel ns ats ∧
      set_params fuel ns ats (gpSpec fuel ns ats) = (ats, none)) →
    entries.foldl
      (fun acc kp =>
        match acc.2 with
        | some _ => acc
        | none =>
          match lookupAttr acc.1 kp.1 with
          | some (PValue.est ns ats) =>
            let r := set_params fuel ns ats kp.2
            (dictInsert acc.1 kp.1 (PValue.est ns r.1), r.2)
          | _ => (acc.1, some PygodError.attributeError))
      (attrs, none)
      = (attrs, none) := by
  intro entries
  induction entries with
  | nil => intro attrs _; rfl
  | cons kp rest ih =>
    intro attrs hents
    obtain ⟨ns, ats, hlook, hsub, hset⟩ := hents kp (by simp)
    rw [List.foldl_cons]
    have hstep : (match lookupAttr attrs kp.1 with
        | some (PValue.est ns ats) =>
          let r := set_params fuel ns ats kp.2
          (dictInsert attrs kp.1 (PValue.est ns r.1), r.2)
        | _ => (attrs, some PygodError.attributeError))
        = ((attrs, none) :
          List (List Char × PValue) × Option PygodError) := by
      rw [hlook]
      simp only [hsub, hset]
      rw [dictInsert_of_lookup hlook]
    refine Eq.trans ?_
      (ih attrs (fun kp' h' => hents kp' (List.mem_cons_of_mem _ h')))
    exact congrArg (fun z => List.foldl _ z rest) hstep

/-- `set_params` fed the full `get_params` output restores every
attribute and raises nothing, on every well-formed estimator. -/
theorem set_params_roundtrip : ∀ (fuel : ℕ) (names : List (List Char))
    (attrs : List (List Char × PValue)), wfE fuel names attrs = true →
    set_params fuel names attrs (get_params fuel true names attrs)
      = (attrs, none) := by
  intro fuel
  induction fuel with
  | zero =>
    intro names attrs h
    rw [wfE] at h
    cases h
  | succ fuel ih =>
    intro names attrs h
    obtain ⟨hgp, hndk⟩ := gp_main (fuel + 1) names attrs h
    obtain ⟨hnd, hkeys⟩ := wfE_elim h
    rw [hgp]
    have hsk : ∀ k ∈ names, SK fuel attrs
        ((get_params (fuel + 1) true names attrs).map Prod.fst) k := by
      intro k hk
      obtain ⟨hs, hl, v, hlook, hnest⟩ := hkeys k hk
      refine ⟨hs, hl, ?_, v, hlook, fun ns ats hv => ?_⟩
      · rw [hgp]
        exact List.mem_map.mpr ⟨_, gpSpec_self_mem hk, rfl⟩
      · subst hv
        exact (gp_main fuel ns ats (hnest ns ats rfl)).2
    have hloop := @set_params_go_loop fuel names
      ((get_params (fuel + 1) true names attrs).map Prod.fst) attrs
      names [] hnd hsk (fun k _ h0 => by simp at h0)
    have hnested : ∀ kp ∈ nestedSpec fuel attrs names, ∃ ns ats,
        lookupAttr attrs kp.1 = some (PValue.est ns ats) ∧
        kp.2 = gpSpec fuel ns ats ∧
        set_params fuel ns ats (gpSpec fuel ns ats) = (ats, none) := by
      intro kp hkp
      rw [nestedSpec] at hkp
      obtain ⟨key, hkey, hf⟩ := List.mem_filterMap.mp hkp
      cases hlk : lookupAttr attrs key with
      | none => rw [hlk] at hf; cases hf
      | some v =>
        cases v with
        | est ns ats =>
          simp only [hlk] at hf
          by_cases hemp : (gpSpec fuel ns ats).isEmpty = true
          · rw [if_pos hemp] at hf
            cases hf
          · rw [if_neg hemp] at hf
            obtain rfl := Option.some.inj hf
            refine ⟨ns, ats, hlk, rfl, ?_⟩
            obtain ⟨hs, hl, v', hlook', hnest'⟩ := hkeys key hkey
            obtain rfl := Option.some.inj (hlook'.symm.trans hlk)
            have hwf := hnest' ns ats rfl
            have := ih ns ats hwf
            rwa [(gp_main fuel ns ats hwf).1] at this
        | num q => rw [hlk] at hf; cases hf
        | none_ => rw [hlk] at hf; cases hf
    cases hps : gpSpec (fuel + 1) names attrs with
    | nil => rw [set_params]
    | cons p ps =>
      rw [set_params]
      rw [← gpSpec_succ, hps] at hloop
      rw [hloop]
      rw [List.nil_append]
      exact apply_nested_fold (nestedSpec fuel attrs names) attrs hnested

theorem set_params_go_upto_invalid {names vk : List (List Char)} :
    ∀ (pre : List (List Char × PValue))
      (attrs : List (List Char × PValue))
      (nested : List (List Char × List (List Char × PValue))),
    (∀ kv ∈ pre, splitDunder kv.1 = none ∧ kv.1 ∈ vk) →
    ∀ (bad : List Char) (v : PValue) (rest : List (List Char × PValue)),
    (partitionKey bad).1 ∉ vk →
    set_params_go names vk attrs nested (pre ++ (bad, v) :: rest)
      = (pre.foldl (fun a kv => dictInsert a kv.1 kv.2) attrs, nested,
         some (.invalidParameter (partitionKey bad).1 names
           (pre.foldl (fun a kv => dictInsert a kv.1 kv.2) attrs))) := by
  intro pre
  induction pre with
  | nil =>
    intro attrs nested _ bad v rest hbad
    rw [List.nil_append, List.foldl_nil, set_params_go, if_neg hbad]
  | cons kv pre' ih =>
    intro attrs nested hpre bad v rest hbad
    obtain ⟨hs, hvk⟩ := hpre kv (by simp)
    rw [List.cons_append, List.foldl_cons, set_params_go]
    simp only [partitionKey_plain hs]
    rw [if_pos hvk, if_neg (by simp)]
    exact ih (dictInsert attrs kv.1 kv.2) nested
      (fun kv' h' => hpre kv' (List.mem_cons_of_mem _ h')) bad v rest hbad

theorem getD_map_label (t : ℚ) (scores : List ℚ) (i : ℕ)
    (hi : i < scores.length) :
    (scores.map (fun s => if t < s then (1 : ℤ) else 0)).getD i 0
      = if t < scores.getD i 0 then 1 else 0 := by
  rw [List.getD_eq_getElem?_getD, List.getD_eq_getElem?_getD,
    List.getElem?_map, List.getElem?_eq_getElem hi]
  rfl

/-- C1: after `_process_decision_scores` has run over a non-empty
`decision_scores_`, `threshold_` is the `100 * (1 - contamination)`
linear-interpolation percentile of the scores, `labels_[i] = 1` iff
`decision_scores_[i] > threshold_`, and the mean and the standard
deviation of the scores are stored at the same time; the single
operation writes all of these derived fields together. -/
theorem C1_process_decision_scores (sqrtQ : ℚ → ℚ) (d : BaseDetector)
    (scores : List ℚ) (h : d.decision_scores_ = some scores)
    (hne : scores ≠ []) :
    ∃ d', _process_decision_scores sqrtQ d = some d' ∧
      d'.threshold_ = some (percentile scores (100 * (1 - d.contamination))) ∧
      (∃ ls, d'.labels_ = some ls ∧ ls.length = scores.length ∧
        ∀ i, i < scores.length →
          ((ls.getD i 0 = 1 ↔
              percentile scores (100 * (1 - d.contamination)) < scores.getD i 0)
            ∧ (ls.getD i 0 = 0 ∨ ls.getD i 0 = 1))) ∧
      d'._mu = some (mean scores) ∧
      d'._sigma = some (sqrtQ (variance scores)) ∧
      d'.decision_scores_ = some scores ∧
      d'.contamination = d.contamination := by
  have hd : _process_decision_scores sqrtQ d = some
      { d with
        threshold_ := some (percentile scores (100 * (1 - d.contamination)))
        labels_ := some (scores.map (fun s =>
          if percentile scores (100 * (1 - d.contamination)) < s
          then (1 : ℤ) else 0))
        _mu := some (mean scores)
        _sigma := some (sqrtQ (variance scores)) } := by
    rw [_process_decision_scores, h]
  refine ⟨_, hd, rfl, ⟨_, rfl, by simp, ?_⟩, rfl, rfl, h, rfl⟩
  intro i hi
  rw [getD_map_label _ _ _ hi]
  constructor
  · split
    · simp_all
    · simp_all
  · split
    · exact Or.inr rfl
    · exact Or.inl rfl

/-- C2: on a fitted detector, `predict` labels node `i` with `1` exactly
when `decision_function(G)[i]` strictly exceeds `threshold_` (a score
equal to the threshold gives `0`); with `return_confidence` it returns
the labels paired with the `predict_confidence` output, without it the
labels alone. -/
theorem C2_predict {γ : Type} (df : γ → List ℚ) (d : BaseDetector) (G : γ)
    (train : List ℚ) (t : ℚ) (ls : List ℤ)
    (h1 : d.decision_scores_ = some train) (h2 : d.threshold_ = some t)
    (h3 : d.labels_ = some ls) :
    predict df d G false
        = .ok ((df G).map (fun s => if t < s then (1 : ℤ) else 0), none) ∧
    (∀ conf, predict_confidence df d G = .ok conf →
      predict df d G true
        = .ok ((df G).map (fun s => if t < s then (1 : ℤ) else 0), some conf)) ∧
    (∀ i, i < (df G).length →
      (((df G).map (fun s => if t < s then (1 : ℤ) else 0)).getD i 0 = 1
          ↔ t < (df G).getD i 0)
      ∧ ((df G).getD i 0 = t →
          ((df G).map (fun s => if t < s then (1 : ℤ) else 0)).getD i 0 = 0)) := by
  refine ⟨by rw [predict, h1, h2, h3]; rfl, fun conf hconf => ?_,
    fun i hi => ?_⟩
  · rw [predict, h1, h2, h3, hconf]; rfl
  · rw [getD_map_label _ _ _ hi]
    constructor
    · constructor
      · intro hl
        by_contra hnot
        rw [if_neg hnot] at hl
        exact absurd hl (by decide)
      · intro hlt; rw [if_pos hlt]
    · intro heq
      rw [if_neg (by rw [heq]; exact lt_irrefl t)]

/-- C3: on a fitted detector with training scores of size `n`,
`predict_confidence` maps each test score `x` to
`c = 1 - BinomCDF(n - floor(n * contamination); n, (1 + k) / (2 + n))`
with `k` the number of training scores `≤ x`, reported as `c` for
predicted outliers (`x > threshold_`) and as `1 - c` for predicted
inliers; every reported confidence lies in `[0, 1]` and the output is
the elementwise image of the input score vector, preserving order. -/
theorem C3_predict_confidence {γ : Type} (df : γ → List ℚ) (d : BaseDetector)
    (G : γ) (train : List ℚ) (t : ℚ) (ls : List ℤ)
    (h1 : d.decision_scores_ = some train) (h2 : d.threshold_ = some t)
    (h3 : d.labels_ = some ls) (hc : 0 ≤ d.contamination) :
    predict_confidence df d G
        = .ok ((df G).map (fun x =>
            let n := train.length
            let k := (train.filter (fun s => s ≤ x)).length
            let p : ℚ := (1 + (k : ℚ)) / (2 + (n : ℚ))
            let c := 1 - binomCdf ((n : ℤ) - ((n : ℚ) * d.contamination).floor)
              n p
            if t < x then c else 1 - c)) ∧
    (∀ y ∈ ((predict_confidence df d G).toOption.getD []), 0 ≤ y ∧ y ≤ 1) := by
  have hnp : npInt ((train.length : ℚ) * d.contamination)
      = ((train.length : ℚ) * d.contamination).floor := by
    rw [npInt]
    split
    · next hlt =>
      exact absurd hlt (not_lt.mpr (by positivity))
    · rfl
  constructor
  · rw [predict_confidence, h1, h2, h3]
    simp only [hnp]
  · rw [predict_confidence, h1, h2, h3]
    intro y hy
    simp only [Except.toOption, Option.getD_some, List.mem_map] at hy
    obtain ⟨x, _, hx⟩ := hy
    set n := train.length with hn
    set k := (train.filter (fun s => s ≤ x)).length with hk
    have hkn : k ≤ n := List.length_filter_le _ _
    have hp0 : (0:ℚ) ≤ (1 + (k : ℚ)) / (2 + (n : ℚ)) := by positivity
    have hp1 : (1 + (k : ℚ)) / (2 + (n : ℚ)) ≤ 1 := by
      rw [div_le_one (by positivity)]
      have : (k : ℚ) ≤ (n : ℚ) := by exact_mod_cast hkn
      linarith
    have hb0 := binomCdf_nonneg ((n : ℤ) - npInt ((n : ℚ) * d.contamination)) n
      _ hp0 hp1
    have hb1 := binomCdf_le_one ((n : ℤ) - npInt ((n : ℚ) * d.contamination)) n
      _ hp0 hp1
    rw [← hx]
    split
    · exact ⟨by linarith, by linarith⟩
    · exact ⟨by linarith, by linarith⟩

/-- C4: on a fitted detector, for `method` equal to `"linear"` or
`"unify"`, every row of the `predict_proba` output has its outlier
probability (column 1) in `[0, 1]`, its inlier probability (column 0)
equal to one minus the outlier probability, and hence sums to one. -/
theorem C4_predict_proba_rows {γ : Type} (erf sqrtQ : ℚ → ℚ)
    (df : γ → List ℚ) (d : BaseDetector) (G : γ)
    (train : List ℚ) (t : ℚ) (ls : List ℤ) (mu sg : ℚ) (method : String)
    (h1 : d.decision_scores_ = some train) (h2 : d.threshold_ = some t)
    (h3 : d.labels_ = some ls) (h4 : d._mu = some mu)
    (h5 : d._sigma = some sg)
    (hm : method = "linear" ∨ method = "unify") :
    ∃ probs, predict_proba erf sqrtQ df d G method false = .ok (probs, none) ∧
      probs.length = (df G).length ∧
      ∀ pr ∈ probs, 0 ≤ pr.2 ∧ pr.2 ≤ 1 ∧ pr.1 = 1 - pr.2 ∧ pr.1 + pr.2 = 1 := by
  have hpair : ∀ a : ℚ, (0:ℚ) ≤ clip01 a ∧ clip01 a ≤ 1
      ∧ 1 - clip01 a = 1 - clip01 a ∧ (1 - clip01 a) + clip01 a = 1 :=
    fun a => ⟨clip01_nonneg a, clip01_le_one a, rfl, by ring⟩
  rcases hm with hm | hm <;> subst hm
  · refine ⟨_, by rw [predict_proba, h1, h2, h3]; rfl, by simp, ?_⟩
    intro pr hpr
    obtain ⟨x, _, hx⟩ := List.mem_map.mp hpr
    subst hx
    obtain ⟨a1, a2, a3, a4⟩ := hpair (minMaxTransform train x)
    exact ⟨a1, a2, rfl, a4⟩
  · refine ⟨_, by rw [predict_proba, h1, h2, h3, h4, h5]; rfl, by simp, ?_⟩
    intro pr hpr
    obtain ⟨x, _, hx⟩ := List.mem_map.mp hpr
    subst hx
    obtain ⟨a1, a2, a3, a4⟩ := hpair (erf ((x - mu) / (sg * sqrtQ 2)))
    exact ⟨a1, a2, rfl, a4⟩

/-- C5: on a detector fitted by `_process_decision_scores`,
`predict_proba` with `method = "unify"` sets the outlier probability of
each test score `x` to
`clip(erf((x - mu) / (sigma * sqrt 2)), 0, 1)` where `mu` and `sigma`
are the mean and the standard deviation of the training scores stored at
fit time, and the inlier probability to one minus that value. -/
theorem C5_predict_proba_unify {γ : Type} (erf sqrtQ : ℚ → ℚ)
    (df : γ → List ℚ) (d d' : BaseDetector) (G : γ) (scores : List ℚ)
    (h : d.decision_scores_ = some scores)
    (hp : _process_decision_scores sqrtQ d = some d') :
    predict_proba erf sqrtQ df d' G "unify" false =
      .ok ((df G).map (fun x =>
        let p1 := clip01 (erf
          ((x - mean scores) / (sqrtQ (variance scores) * sqrtQ 2)))
        (1 - p1, p1)), none) := by
  have hd : _process_decision_scores sqrtQ d = some
      { d with
        threshold_ := some (percentile scores (100 * (1 - d.contamination)))
        labels_ := some (scores.map (fun s =>
          if percentile scores (100 * (1 - d.contamination)) < s
          then (1 : ℤ) else 0))
        _mu := some (mean scores)
        _sigma := some (sqrtQ (variance scores)) } := by
    rw [_process_decision_scores, h]
  obtain rfl := Option.some.inj (hd.symm.trans hp)
  simp only [predict_proba, h]
  rfl

/-- C6: on a detector whose fitted attributes have not been populated,
`predict`, `predict_proba` and `predict_confidence` all fail with the
not-fitted error and return no result (the embedding is pure, so the
detector value itself is untouched). -/
theorem C6_unfitted {γ : Type} (erf sqrtQ : ℚ → ℚ) (df : γ → List ℚ)
    (d : BaseDetector) (G : γ) (method : String) (rc : Bool)
    (h : d.decision_scores_ = none ∨ d.threshold_ = none ∨ d.labels_ = none) :
    predict df d G rc = .error .notFitted ∧
    predict_proba erf sqrtQ df d G method rc = .error .notFitted ∧
    predict_confidence df d G = .error .notFitted := by
  obtain ⟨c, ds, th, lb, mu, sg⟩ := d
  rcases h with h | h | h
  · subst h
    exact ⟨rfl, rfl, rfl⟩
  · subst h
    cases ds <;> exact ⟨rfl, rfl, rfl⟩
  · subst h
    cases ds
    · exact ⟨rfl, rfl, rfl⟩
    · cases th <;> exact ⟨rfl, rfl, rfl⟩

/-- C7: on a fitted detector, `predict_proba` with a `method` other than
`"linear"` and `"unify"` fails with the invalid-method error carrying
the offending method value, and returns no probability matrix. -/
theorem C7_invalid_method {γ : Type} (erf sqrtQ : ℚ → ℚ)
    (df : γ → List ℚ) (d : BaseDetector) (G : γ)
    (train : List ℚ) (t : ℚ) (ls : List ℤ) (method : String) (rc : Bool)
    (h1 : d.decision_scores_ = some train) (h2 : d.threshold_ = some t)
    (h3 : d.labels_ = some ls)
    (hlin : method ≠ "linear") (huni : method ≠ "unify") :
    predict_proba erf sqrtQ df d G method rc
      = .error (.invalidMethod method) := by
  rw [predict_proba, h1, h2, h3]
  simp only [if_neg hlin, if_neg huni]

set_option maxHeartbeats 1000000 in
theorem C1_witness :
    (([1, 2, 3, 4] : List ℚ)) ≠ [] ∧
    (∃ d', _process_decision_scores (fun q => q)
        { contamination := 1/10, decision_scores_ := some [1, 2, 3, 4] }
        = some d' ∧
      d'.threshold_ = some (percentile [1, 2, 3, 4] (100 * (1 - (1/10 : ℚ)))) ∧
      (∃ ls, d'.labels_ = some ls ∧
        ls.length = ([1, 2, 3, 4] : List ℚ).length ∧
        ∀ i, i < ([1, 2, 3, 4] : List ℚ).length →
          ((ls.getD i 0 = 1 ↔
              percentile [1, 2, 3, 4] (100 * (1 - (1/10 : ℚ)))
                < ([1, 2, 3, 4] : List ℚ).getD i 0)
            ∧ (ls.getD i 0 = 0 ∨ ls.getD i 0 = 1))) ∧
      d'._mu = some (mean [1, 2, 3, 4]) ∧
      d'._sigma = some (variance [1, 2, 3, 4]) ∧
      d'.decision_scores_ = some [1, 2, 3, 4] ∧
      d'.contamination = 1/10) :=
  ⟨by decide,
    C1_process_decision_scores (fun q => q) _ [1, 2, 3, 4] rfl (by decide)⟩

set_option maxHeartbeats 1000000 in
theorem C2_witness :
    predict (fun _ : Unit => [3, 13/4, 4])
        { contamination := 1/4, decision_scores_ := some [1, 2, 3, 4],
          threshold_ := some (13/4), labels_ := some [0, 0, 0, 1] } () false
        = .ok (([3, 13/4, 4] : List ℚ).map
            (fun s => if (13/4 : ℚ) < s then (1 : ℤ) else 0), none) ∧
    (∀ conf, predict_confidence (fun _ : Unit => [3, 13/4, 4])
        { contamination := 1/4, decision_scores_ := some [1, 2, 3, 4],
          threshold_ := some (13/4), labels_ := some [0, 0, 0, 1] } ()
        = .ok conf →
      predict (fun _ : Unit => [3, 13/4, 4])
        { contamination := 1/4, decision_scores_ := some [1, 2, 3, 4],
          threshold_ := some (13/4), labels_ := some [0, 0, 0, 1] } () true
        = .ok (([3, 13/4, 4] : List ℚ).map
            (fun s => if (13/4 : ℚ) < s then (1 : ℤ) else 0), some conf)) ∧
    (∀ i, i < ([3, 13/4, 4] : List ℚ).length →
      ((([3, 13/4, 4] : List ℚ).map
          (fun s => if (13/4 : ℚ) < s then (1 : ℤ) else 0)).getD i 0 = 1
        ↔ (13/4 : ℚ) < ([3, 13/4, 4] : List ℚ).getD i 0)
      ∧ (([3, 13/4, 4] : List ℚ).getD i 0 = 13/4 →
          (([3, 13/4, 4] : List ℚ).map
            (fun s => if (13/4 : ℚ) < s then (1 : ℤ) else 0)).getD i 0 = 0)) :=
  C2_predict (fun _ : Unit => [3, 13/4, 4]) _ () [1, 2, 3, 4] (13/4)
    [0, 0, 0, 1] rfl rfl rfl

set_option maxHeartbeats 1000000 in
theorem C3_witness :
    (0 : ℚ) ≤ 1/4 ∧
    (predict_confidence (fun _ : Unit => [3, 13/4, 4])
        { contamination := 1/4, decision_scores_ := some [1, 2, 3, 4],
          threshold_ := some (13/4), labels_ := some [0, 0, 0, 1] } ()
        = .ok (([3, 13/4, 4] : List ℚ).map (fun x =>
            let n := ([1, 2, 3, 4] : List ℚ).length
            let k := (([1, 2, 3, 4] : List ℚ).filter (fun s => s ≤ x)).length
            let p : ℚ := (1 + (k : ℚ)) / (2 + (n : ℚ))
            let c := 1 - binomCdf ((n : ℤ) - ((n : ℚ) * (1/4 : ℚ)).floor) n p
            if (13/4 : ℚ) < x then c else 1 - c)) ∧
      (∀ y ∈ ((predict_confidence (fun _ : Unit => [3, 13/4, 4])
          { contamination := 1/4, decision_scores_ := some [1, 2, 3, 4],
            threshold_ := some (13/4), labels_ := some [0, 0, 0, 1] }
          ()).toOption.getD []), 0 ≤ y ∧ y ≤ 1)) :=
  ⟨by decide,
    C3_predict_confidence (fun _ : Unit => [3, 13/4, 4]) _ () [1, 2, 3, 4]
      (13/4) [0, 0, 0, 1] rfl rfl rfl (by decide)⟩

set_option maxHeartbeats 1000000 in
theorem C4_witness :
    ∃ probs, predict_proba (fun q => q) (fun q => q)
        (fun _ : Unit => [3, 13/4, 4])
        { contamination := 1/4, decision_scores_ := some [1, 2, 3, 4],
          threshold_ := some (13/4), labels_ := some [0, 0, 0, 1],
          _mu := some (5/2), _sigma := some (5/4) } () "linear" false
        = .ok (probs, none) ∧
      probs.length = ([3, 13/4, 4] : List ℚ).length ∧
      ∀ pr ∈ probs, 0 ≤ pr.2 ∧ pr.2 ≤ 1 ∧ pr.1 = 1 - pr.2 ∧ pr.1 + pr.2 = 1 :=
  C4_predict_proba_rows (fun q => q) (fun q => q)
    (fun _ : Unit => [3, 13/4, 4]) _ () [1, 2, 3, 4] (13/4) [0, 0, 0, 1]
    (5/2) (5/4) "linear" rfl rfl rfl rfl rfl (Or.inl rfl)

set_option maxHeartbeats 1000000 in
theorem C5_witness :
    predict_proba (fun q => q) (fun q => q) (fun _ : Unit => [3, 13/4, 4])
      { contamination := 1/4, decision_scores_ := some [1, 2, 3, 4],
        threshold_ := some (13/4),
        labels_ := some (([1, 2, 3, 4] : List ℚ).map (fun s =>
          if percentile [1, 2, 3, 4] (100 * (1 - (1/4 : ℚ))) < s
          then (1 : ℤ) else 0)),
        _mu := some (mean [1, 2, 3, 4]),
        _sigma := some (variance [1, 2, 3, 4]) } () "unify" false
      = .ok ((([3, 13/4, 4] : List ℚ)).map (fun x =>
          let p1 := clip01 ((fun q : ℚ => q)
            ((x - mean [1, 2, 3, 4])
              / (variance [1, 2, 3, 4] * ((fun q : ℚ => q) 2))))
          (1 - p1, p1)), none) :=
  C5_predict_proba_unify (fun q => q) (fun q => q)
    (fun _ : Unit => [3, 13/4, 4])
    { contamination := 1/4, decision_scores_ := some [1, 2, 3, 4] } _ ()
    [1, 2, 3, 4] rfl rfl

theorem C6_witness :
    predict (fun _ : Unit => ([] : List ℚ))
        { contamination := 1/10 } () false = .error .notFitted ∧
    predict_proba (fun q => q) (fun q => q) (fun _ : Unit => ([] : List ℚ))
        { contamination := 1/10 } () "linear" false = .error .notFitted ∧
    predict_confidence (fun _ : Unit => ([] : List ℚ))
        { contamination := 1/10 } () = .error .notFitted :=
  C6_unfitted (fun q => q) (fun q => q) (fun _ : Unit => ([] : List ℚ))
    { contamination := 1/10 } () "linear" false (Or.inl rfl)

theorem C7_witness :
    predict_proba (fun q => q) (fun q => q) (fun _ : Unit => [3, 13/4, 4])
        { contamination := 1/4, decision_scores_ := some [1, 2, 3, 4],
          threshold_ := some (13/4), labels_ := some [0, 0, 0, 1] } ()
        "quadratic" false
      = .error (.invalidMethod "quadratic") :=
  C7_invalid_method (fun q => q) (fun q => q) (fun _ : Unit => [3, 13/4, 4])
    _ () [1, 2, 3, 4] (13/4) [0, 0, 0, 1] "quadratic" false rfl rfl rfl
    (by decide) (by decide)

/-- C8 (amended): when `set_params` is called with keyword arguments
whose keys are valid simple parameter names up to the first key whose
top-level name is not a declared parameter, it raises an
invalid-parameter error naming that top-level key and the estimator;
keys are processed in order, so the valid simple keys preceding the
invalid one have already been assigned when the error is raised (partial
mutation), while the entries from the invalid key onward and all nested
updates are not applied. -/
theorem C8_set_params_invalid (fuel : ℕ) (names : List (List Char))
    (attrs : List (List Char × PValue))
    (pre : List (List Char × PValue)) (bad : List Char) (v : PValue)
    (rest : List (List Char × PValue))
    (hpre : ∀ kv ∈ pre, splitDunder kv.1 = none ∧
      kv.1 ∈ (get_params (fuel + 1) true names attrs).map Prod.fst)
    (hbad : (partitionKey bad).1
      ∉ (get_params (fuel + 1) true names attrs).map Prod.fst) :
    set_params (fuel + 1) names attrs (pre ++ (bad, v) :: rest)
      = (pre.foldl (fun a kv => dictInsert a kv.1 kv.2) attrs,
         some (.invalidParameter (partitionKey bad).1 names
           (pre.foldl (fun a kv => dictInsert a kv.1 kv.2) attrs))) := by
  have hgo := @set_params_go_upto_invalid names
    ((get_params (fuel + 1) true names attrs).map Prod.fst)
    pre attrs [] hpre bad v rest hbad
  cases pre with
  | nil =>
    rw [List.nil_append] at hgo ⊢
    rw [set_params, hgo]
  | cons q pre' =>
    rw [List.cons_append] at hgo ⊢
    rw [set_params, hgo]

/-- C8 counterexample: on a detector with sole parameter
`contamination` set to `1/10`, the call
`set_params(contamination=3/10, bogus=1)` raises the invalid-parameter
error for `bogus`, yet `contamination` has already been changed to
`3/10`: the claim that a call containing an unknown key leaves every
existing parameter value unchanged is false. -/
theorem C8_counterexample :
    (set_params 1 ["contamination".toList]
        [("contamination".toList, PValue.num (1/10))]
        [("contamination".toList, PValue.num (3/10)),
         ("bogus".toList, PValue.num 1)]).2
      = some (.invalidParameter "bogus".toList ["contamination".toList]
          [("contamination".toList, PValue.num (3/10))]) ∧
    (set_params 1 ["contamination".toList]
        [("contamination".toList, PValue.num (1/10))]
        [("contamination".toList, PValue.num (3/10)),
         ("bogus".toList, PValue.num 1)]).1
      = [("contamination".toList, PValue.num (3/10))] ∧
    lookupAttr [("contamination".toList, PValue.num (1/10))]
        "contamination".toList
      = some (PValue.num (1/10)) :=
  ⟨rfl, rfl, rfl⟩

theorem C8_witness :
    (∀ kv ∈ [("contamination".toList, PValue.num (3/10))],
      splitDunder kv.1 = none ∧
      kv.1 ∈ (get_params 1 true ["contamination".toList]
        [("contamination".toList, PValue.num (1/10))]).map Prod.fst) ∧
    (partitionKey "bogus".toList).1
      ∉ (get_params 1 true ["contamination".toList]
        [("contamination".toList, PValue.num (1/10))]).map Prod.fst ∧
    set_params 1 ["contamination".toList]
        [("contamination".toList, PValue.num (1/10))]
        ([("contamination".toList, PValue.num (3/10))]
          ++ ("bogus".toList, PValue.num 1) :: [])
      = ([("contamination".toList, PValue.num (3/10))].foldl
          (fun a kv => dictInsert a kv.1 kv.2)
          [("contamination".toList, PValue.num (1/10))],
         some (.invalidParameter (partitionKey "bogus".toList).1
           ["contamination".toList]
           ([("contamination".toList, PValue.num (3/10))].foldl
             (fun a kv => dictInsert a kv.1 kv.2)
             [("contamination".toList, PValue.num (1/10))]))) :=
  ⟨by decide, by decide,
    C8_set_params_invalid 0 ["contamination".toList]
      [("contamination".toList, PValue.num (1/10))]
      [("contamination".toList, PValue.num (3/10))]
      "bogus".toList (PValue.num 1) [] (by decide) (by decide)⟩

/-- C9: on a well-formed estimator, calling `set_params` with exactly
the mapping returned by `get_params` restores every attribute, raises
nothing, and leaves the `get_params` output — the observable
configuration — unchanged. -/
theorem C9_get_set_params_roundtrip (fuel : ℕ) (names : List (List Char))
    (attrs : List (List Char × PValue)) (h : wfE fuel names attrs = true) :
    set_params fuel names attrs (get_params fuel true names attrs)
      = (attrs, none) ∧
    get_params fuel true names
        (set_params fuel names attrs (get_params fuel true names attrs)).1
      = get_params fuel true names attrs := by
  have hrt := set_params_roundtrip fuel names attrs h
  exact ⟨hrt, by rw [hrt]⟩

theorem C9_witness :
    wfE 2 ["contamination".toList, "model".toList]
        [("contamination".toList, PValue.num (1/5)),
         ("model".toList, PValue.est ["contamination".toList]
           [("contamination".toList, PValue.num (1/10))])] = true ∧
    (set_params 2 ["contamination".toList, "model".toList]
        [("contamination".toList, PValue.num (1/5)),
         ("model".toList, PValue.est ["contamination".toList]
           [("contamination".toList, PValue.num (1/10))])]
        (get_params 2 true ["contamination".toList, "model".toList]
          [("contamination".toList, PValue.num (1/5)),
           ("model".toList, PValue.est ["contamination".toList]
             [("contamination".toList, PValue.num (1/10))])])
      = ([("contamination".toList, PValue.num (1/5)),
          ("model".toList, PValue.est ["contamination".toList]
            [("contamination".toList, PValue.num (1/10))])], none) ∧
    get_params 2 true ["contamination".toList, "model".toList]
        (set_params 2 ["contamination".toList, "model".toList]
          [("contamination".toList, PValue.num (1/5)),
           ("model".toList, PValue.est ["contamination".toList]
             [("contamination".toList, PValue.num (1/10))])]
          (get_params 2 true ["contamination".toList, "model".toList]
            [("contamination".toList, PValue.num (1/5)),
             ("model".toList, PValue.est ["contamination".toList]
               [("contamination".toList, PValue.num (1/10))])])).1
      = get_params 2 true ["contamination".toList, "model".toList]
          [("contamination".toList, PValue.num (1/5)),
           ("model".toList, PValue.est ["contamination".toList]
             [("contamination".toList, PValue.num (1/10))])]) :=
  ⟨by decide,
    C9_get_set_params_roundtrip 2 _ _ (by decide)⟩

/-- C10: on a well-formed estimator with a nested estimator bound to a
declared parameter, `get_params` with `deep = true` contains the
flattened `key__subkey` entry for every parameter of the nested
estimator and, in addition, the nested estimator itself under its own
top-level key; with `deep = false` the output is exactly the top-level
names with their values. -/
theorem C10_get_params_deep (fuel : ℕ) (names : List (List Char))
    (attrs : List (List Char × PValue)) (key : List Char)
    (ns : List (List Char)) (ats : List (List Char × PValue))
    (h : wfE (fuel + 1) names attrs = true) (hk : key ∈ names)
    (hv : lookupAttr attrs key = some (PValue.est ns ats)) :
    (∀ kv ∈ get_params fuel true ns ats,
      (key ++ '_' :: '_' :: kv.1, kv.2)
        ∈ get_params (fuel + 1) true names attrs) ∧
    (key, PValue.est ns ats) ∈ get_params (fuel + 1) true names attrs ∧
    get_params (fuel + 1) false names attrs
      = names.map (fun k => (k, (lookupAttr attrs k).getD PValue.none_)) := by
  obtain ⟨hnd, hkeys⟩ := wfE_elim h
  obtain ⟨hs, hl, v, hlook, hnest⟩ := hkeys key hk
  obtain rfl := Option.some.inj (hlook.symm.trans hv)
  have hwf := hnest ns ats rfl
  have hgp1 := (gp_main (fuel + 1) names attrs h).1
  have hgp2 := (gp_main fuel ns ats hwf).1
  refine ⟨?_, ?_, get_params_shallow fuel names attrs hnd⟩
  · intro kv hkv
    rw [hgp1, gpSpec_succ]
    refine List.mem_flatten.mpr
      ⟨gpBlock fuel attrs key, List.mem_map_of_mem _ hk, ?_⟩
    rw [gpBlock_of_lookup_est hv]
    refine List.mem_append_left _ ?_
    rw [hgp2] at hkv
    rw [flattenSub]
    exact List.mem_map.mpr ⟨kv, hkv, rfl⟩
  · rw [hgp1, gpSpec_succ]
    refine List.mem_flatten.mpr
      ⟨gpBlock fuel attrs key, List.mem_map_of_mem _ hk, ?_⟩
    rw [gpBlock_of_lookup_est hv]
    exact List.mem_append_right _ (by simp)

theorem C10_witness :
    wfE 2 ["contamination".toList, "model".toList]
        [("contamination".toList, PValue.num (1/5)),
         ("model".toList, PValue.est ["contamination".toList]
           [("contamination".toList, PValue.num (1/10))])] = true ∧
    "model".toList ∈ (["contamination".toList, "model".toList] :
      List (List Char)) ∧
    ((∀ kv ∈ get_params 1 true ["contamination".toList]
        [("contamination".toList, PValue.num (1/10))],
      ("model".toList ++ '_' :: '_' :: kv.1, kv.2)
        ∈ get_params 2 true ["contamination".toList, "model".toList]
          [("contamination".toList, PValue.num (1/5)),
           ("model".toList, PValue.est ["contamination".toList]
             [("contamination".toList, PValue.num (1/10))])]) ∧
    ("model".toList, PValue.est ["contamination".toList]
        [("contamination".toList, PValue.num (1/10))])
      ∈ get_params 2 true ["contamination".toList, "model".toList]
        [("contamination".toList, PValue.num (1/5)),
         ("model".toList, PValue.est ["contamination".toList]
           [("contamination".toList, PValue.num (1/10))])] ∧
    get_params 2 false ["contamination".toList, "model".toList]
        [("contamination".toList, PValue.num (1/5)),
         ("model".toList, PValue.est ["contamination".toList]
           [("contamination".toList, PValue.num (1/10))])]
      = (["contamination".toList, "model".toList] : List (List Char)).map
          (fun k => (k, (lookupAttr
            [("contamination".toList, PValue.num (1/5)),
             ("model".toList, PValue.est ["contamination".toList]
               [("contamination".toList, PValue.num (1/10))])] k).getD
            PValue.none_))) :=
  ⟨by decide, by decide,
    C10_get_params_deep 1 _ _ "model".toList _ _ (by decide) (by decide) rfl⟩

end Pygod
